import Mathlib

/-!
# Verification of the week-plan generator (`src/lib/planner`)

Shallow embedding of `src/lib/planner/generateWeekPlan.ts` and
`src/lib/planner/utils.ts`.

Modelling conventions:
* JavaScript `number` values flowing through the generator are modelled as
  exact rationals (`ℚ`).  Every RNG output is exactly `u / 2^32` for a
  32-bit `u`, which IEEE doubles represent exactly; products such as
  `rng() * 95` are also exact in doubles.  The only inexact double
  operations in the source are weight-sum accumulation and the division
  by 5 in the time-of-day draw; they influence only *which* template/day
  is drawn at boundaries of width `≈ 2^-52`, something none of the
  verified properties depend on.
* The 32-bit integer pipeline of `mulberry32` (JS `imul`, `^`, `|`,
  `>>>`) is modelled on `Nat` with explicit `% 2^32`; signed int32
  intermediates are represented by their unsigned residues, which agree
  with two's-complement bit patterns modulo `2^32`.
* `Date` values are modelled as milliseconds since the Unix epoch
  (`Int`).  The source stores `iso(date)` strings in the output;
  `Date.prototype.toISOString` is injective and strictly monotone on
  times, so output timestamps are carried as the underlying `Int`.
  The ISO string itself is reconstructed (for the seed derivation, which
  sums its character codes) by `iso` below, modelling `toISOString` for
  years 0000–9999.
* A thrown JS `TypeError` (property access on `undefined`) is modelled
  as `Except.error`; the generator is a function into
  `Except String GenerationResult`.
-/

namespace Planner

/- Batteries seals the `Rat` arithmetic behind `@[irreducible]`; re-open it
locally so that concrete runs of the generator can be evaluated by `decide`. -/
attribute [local semireducible] Rat.mul Rat.add Rat.sub Rat.inv Rat.ofScientific

/-! ## Deterministic RNG (`mulberry32`, utils.ts lines 31–38) -/

/-- Model of `Math.imul`: 32-bit product (unsigned residue). -/
def imul32 (a b : Nat) : Nat := a * b % 4294967296

/-- One step of `mulberry32`.  The closure state is the captured `seed`
variable (a JS number that grows by `0x6d2b79f5` on every call; exact in
doubles throughout any realistic call count).  Returns the new state and
the generated float `u / 2^32 ∈ [0,1)`. -/
def mulberryNext (seed : Int) : Int × ℚ :=
  let seed' := seed + 0x6d2b79f5
  let t0 : Nat := (seed' % (4294967296 : Int)).toNat
  let t1 : Nat := imul32 (t0 ^^^ (t0 >>> 15)) (t0 ||| 1)
  let t2 : Nat := t1 ^^^ ((t1 + imul32 (t1 ^^^ (t1 >>> 7)) (t1 ||| 61)) % 4294967296)
  let u : Nat := t2 ^^^ (t2 >>> 14)
  (seed', (u : ℚ) / 4294967296)

/-! ## Small utilities (utils.ts) -/

/-- Model of `addDays` (utils.ts 11–15): pure UTC day arithmetic on epoch ms. -/
def addDays (date : Int) (days : Int) : Int := date + days * 86400000

/-- Model of `addMinutes` (utils.ts 17–21). -/
def addMinutes (date : Int) (minutes : Int) : Int := date + minutes * 60000

/-- Model of `clamp` (utils.ts 27–29): `Math.max(lo, Math.min(hi, n))`. -/
def clamp (n lo hi : Int) : Int := max lo (min hi n)

/-- Zero-padded decimal rendering, for `iso`. -/
def padNum (width n : Nat) : String :=
  let s := toString n
  ⟨List.replicate (width - s.length) '0'⟩ ++ s

/-- Civil date from days since 1970-01-01 (proleptic Gregorian; standard
`civil_from_days` algorithm), for `iso`.  Valid for year ≥ 0. -/
def civilFromDays (z : Int) : Nat × Nat × Nat :=
  let z' := z + 719468
  if z' < 0 then (0, 1, 1)
  else
    let n := z'.toNat
    let era := n / 146097
    let doe := n % 146097
    let yoe := (doe - doe / 1460 + doe / 36524 - doe / 146096) / 365
    let y := yoe + era * 400
    let doy := doe - (365 * yoe + yoe / 4 - yoe / 100)
    let mp := (5 * doy + 2) / 153
    let d := doy - (153 * mp + 2) / 5 + 1
    let m := if mp < 10 then mp + 3 else mp - 9
    (if m ≤ 2 then y + 1 else y, m, d)

/-- Model of `iso` (utils.ts 23–25): `Date.prototype.toISOString`
(`YYYY-MM-DDTHH:mm:ss.sssZ`), modelled for years 0000–9999. -/
def iso (ms : Int) : String :=
  let day := Int.fdiv ms 86400000
  let msOfDay := (Int.fmod ms 86400000).toNat
  let ymd := civilFromDays day
  let hh := msOfDay / 3600000
  let mi := msOfDay % 3600000 / 60000
  let ss := msOfDay % 60000 / 1000
  let mmm := msOfDay % 1000
  padNum 4 ymd.1 ++ "-" ++ padNum 2 ymd.2.1 ++ "-" ++ padNum 2 ymd.2.2 ++ "T" ++
    padNum 2 hh ++ ":" ++ padNum 2 mi ++ ":" ++ padNum 2 ss ++ "." ++ padNum 3 mmm ++ "Z"

/-- Sum of `charCodeAt` over a string (seed derivation,
generateWeekPlan.ts 120–127).  Faithful for strings of BMP characters
(UTF-16 code units = code points there). -/
def charCodeSum (s : String) : Nat := (s.data.map Char.toNat).sum

/-- Index drawn by `Math.floor(rng() * len)`. -/
def floorMulIdx (r : ℚ) (len : Nat) : Nat := (r * (len : ℚ)).floor.toNat

/-- Model of `pickOne` (utils.ts 40–42) specialised to the string pools it is
applied to.  An empty pool would yield JS `undefined`, interpolated as
`"undefined"`; every call site passes a non-empty literal pool. -/
def pickOne (s : Int) (arr : List String) : String × Int :=
  let next := mulberryNext s
  ((arr[floorMulIdx next.2 arr.length]?).getD "undefined", next.1)

/-- Swap two positions of a list (the body of the Fisher–Yates loop,
`[a[i], a[j]] = [a[j], a[i]]`). -/
def listSwap (l : List α) (i j : Nat) : List α :=
  match l[i]?, l[j]? with
  | some a, some b => (l.set i b).set j a
  | _, _ => l

/-- Fisher–Yates loop of `shuffle` (utils.ts 44–51), counting the loop
index `i` down to 1. -/
def shuffleAux : Nat → List α → Int → List α × Int
  | 0, l, s => (l, s)
  | Nat.succ k, l, s =>
    let next := mulberryNext s
    let j := floorMulIdx next.2 (k + 2)
    shuffleAux k (listSwap l (k + 1) j) next.1

/-- Model of `shuffle` (utils.ts 44–51): returns a permuted copy. -/
def shuffle (l : List α) (s : Int) : List α × Int :=
  shuffleAux (l.length - 1) l s

/-- The index-scan loop shared by `weightedSampleUnique` and the
day-bucket draw: subtract weights from `r` until `r ≤ 0`, returning the
break index (or `length` if the loop runs off the end). -/
def scanBreak : List ℚ → ℚ → Nat
  | [], _ => 0
  | w :: ws, r =>
    let r' := r - w
    if r' ≤ 0 then 0 else 1 + scanBreak ws r'

/-- Model of `pool.splice(i, 1)`: the removed element (if any) and the remaining
pool. -/
def spliceOut (l : List α) (i : Nat) : Option α × List α := (l[i]?, l.eraseIdx i)

/-- Loop body of `weightedSampleUnique` (utils.ts 56–81).  The splice
indices are always in range (`rng() < 1`); the unreachable out-of-range
branch removes nothing. -/
def wsuAux (weight : α → ℚ) : Nat → List α → Int → List α × Int
  | 0, _, s => ([], s)
  | Nat.succ n, pool, s =>
    if pool.isEmpty then ([], s)
    else
      let total := (pool.map (fun it => max 0 (weight it))).sum
      if total ≤ 0 then
        let next := mulberryNext s
        let sp := spliceOut pool (floorMulIdx next.2 pool.length)
        let rest := wsuAux weight n sp.2 next.1
        (match sp.1 with | some x => x :: rest.1 | none => rest.1, rest.2)
      else
        let next := mulberryNext s
        let idx := scanBreak (pool.map (fun it => max 0 (weight it))) (next.2 * total)
        let sp := spliceOut pool (min idx (pool.length - 1))
        let rest := wsuAux weight n sp.2 next.1
        (match sp.1 with | some x => x :: rest.1 | none => rest.1, rest.2)

/-- Model of `weightedSampleUnique` (utils.ts 56–81). -/
def weightedSampleUnique (s : Int) (items : List α) (weight : α → ℚ) (k : Nat) :
    List α × Int :=
  wsuAux weight k items s

/-- Structural substring test on char lists (models
`String.prototype.includes` / regex literal-substring match). -/
def charsStartWith : List Char → List Char → Bool
  | _, [] => true
  | [], _ :: _ => false
  | c :: cs, p :: ps => c = p && charsStartWith cs ps

/-- Whether `pat` occurs anywhere in `hay`. -/
def charsContain (hay pat : List Char) : Bool :=
  match hay with
  | [] => pat.isEmpty
  | c :: tl => charsStartWith (c :: tl) pat || charsContain tl pat

/-- Whether `hay.includes(pat)` holds. -/
def strContains (hay pat : String) : Bool := charsContain hay.data pat.data

/-- ASCII lowercasing (JS `toLowerCase`; all strings the generator
lowercases are compared against ASCII patterns). -/
def lowerStr (s : String) : String := ⟨s.data.map Char.toLower⟩

/-- Model of `String.prototype.replace` with a string pattern: replace the first
occurrence only. -/
def replaceFirstChars : List Char → List Char → List Char → List Char
  | [], _, _ => []
  | c :: tl, pat, rep =>
    if charsStartWith (c :: tl) pat then rep ++ (c :: tl).drop pat.length
    else c :: replaceFirstChars tl pat rep

/-- Model of `s.replace(pat, rep)` for string `pat`. -/
def replaceFirst (s pat rep : String) : String :=
  ⟨replaceFirstChars s.data pat.data rep.data⟩

/-- Model of `looksManufactured` (utils.ts 83–97): fixed promotional-phrase
denylist; each regex is a literal substring, matched against the
lowercased text. -/
def looksManufactured (text : String) : Bool :=
  let t := lowerStr text
  ["use my tool", "sign up", "try it now", "discount", "limited time",
    "dm me", "link in bio", "affiliat"].any (fun pat => strContains t pat)

/-! ## Data model (`./types`; the types module itself is not under `src/`,
its shape is fixed by the generator's and the spec's field usage) -/

structure Company where
  id : String
  name : String
  description : String
  posts_per_week : Option Int
deriving DecidableEq, Repr

structure Persona where
  id : String
  company_id : String
  username : String
  bio : String
deriving DecidableEq, Repr

structure Subreddit where
  id : String
  company_id : String
  name : String
deriving DecidableEq, Repr

structure Keyword where
  id : String
  phrase : String
deriving DecidableEq, Repr

structure GenPost where
  subreddit : String
  title : String
  body : String
  author_username : String
  scheduled_at : Int
  keyword_ids : List String
deriving DecidableEq, Repr

structure GenComment where
  post_temp_index : Nat
  parent_temp_index : Option Nat
  comment_text : String
  username : String
  scheduled_at : Int
deriving DecidableEq, Repr

/-- The quality report; the source's `flags: Record<string, boolean>`
holds exactly the three fixed keys modelled as fields here. -/
structure Quality where
  score : Int
  single_persona_dominates : Bool
  salesy_language : Bool
  too_many_op_replies : Bool
  notes : String
deriving DecidableEq, Repr

structure GenerationResult where
  posts : List GenPost
  comments : List GenComment
  quality : Quality
deriving DecidableEq, Repr

/-- The input bundle (generateWeekPlan.ts 14–24). -/
structure Inputs where
  company : Company
  personas : List Persona
  subreddits : List Subreddit
  keywords : List Keyword
  recentKeywordIds : Option (List String)
  recentSubreddits : Option (List String)
  seed : Option Int
  weekStart : Int
deriving DecidableEq, Repr

/-! ## Text builders (generateWeekPlan.ts 26–115) -/

/-- Model of `buildPostTitle` (lines 26–49). -/
def buildPostTitle (keyword : Keyword) (subreddit : String) (companyName : String)
    (s : Int) : String × Int :=
  let k := keyword.phrase
  let cn := companyName
  let templates := [
    s!"What’s the best {k}?",
    s!"Any good {k} recommendations?",
    s!"Struggling with {k} — what do you all use?",
    s!"Best workflow for {k}?",
    s!"{cn} vs alternatives for {k}?"]
  let templates := if strContains (lowerStr subreddit) "powerpoint" then
      templates ++ [s!"PowerPoint people: best {k}?", s!"How are you doing {k} in PowerPoint?"]
    else templates
  let templates := if strContains (lowerStr subreddit) "canva" then
      templates ++ [s!"Canva users: what’s your pick for {k}?"] else templates
  let templates := if strContains (lowerStr subreddit) "claude" then
      templates ++ [s!"Claude for {k} — worth it?"] else templates
  pickOne s templates

/-- Model of `buildPostBody` (lines 51–91). -/
def buildPostBody (company : Company) (persona : Persona) (keyword : Keyword)
    (s : Int) : String × Int :=
  let painPoints := [
    "I keep losing time on formatting.",
    "My slides always end up looking generic.",
    "I’m fine with the outline, but the actual deck takes forever.",
    "I’m trying to keep the narrative tight and not overload each slide.",
    "I’m not a designer and it shows."]
  let constraints := [
    "Need something I can use weekly without babysitting.",
    "Mostly for internal reviews + occasional customer decks.",
    "Would love a workflow that starts from bullet points.",
    "Needs to be fast — I’m usually doing this under deadline.",
    "Ideally something that doesn’t fight the brand style."]
  let prompts := [
    "What’s your current stack for this?",
    "Any tools that actually help beyond templates?",
    "How do you avoid spending hours nudging text boxes?",
    "What do you use when you need a deck that looks \x27done\x27?",
    "Any recs that feel less clunky than my current process?"]
  let bio := persona.bio
  let line1 := s!"Context: {bio}"
  let p1 := pickOne s painPoints
  let kp := keyword.phrase
  let pain := p1.1
  let line2 := s!"I’m looking into {kp}. {pain}"
  let p2 := pickOne p1.2 constraints
  let p3 := pickOne p2.2 prompts
  let c1 := p2.1
  let c2 := p3.1
  let line3 := s!"{c1} {c2}"
  let cn := company.name
  let softMentions := [
    s!"I saw {cn} mentioned in a thread but haven’t tried it yet.",
    s!"Someone suggested {cn}—curious if it’s legit or just hype.",
    s!"Has anyone tested {cn} vs other options?"]
  let coin := mulberryNext p3.2
  if coin.2 < (0.45 : ℚ) then
    let p4 := pickOne coin.1 softMentions
    let m := p4.1
    (line1 ++ "\n\n" ++ line2 ++ "\n\n" ++ line3 ++ "\n\n" ++ m, p4.2)
  else
    (line1 ++ "\n\n" ++ line2 ++ "\n\n" ++ line3, coin.1)

/-- Model of `buildComment` (lines 93–115); `role` is one of `"support"`,
`"neutral"`, `"counter"`. -/
def buildComment (persona : Persona) (keyword : Keyword) (company : Company)
    (role : String) (s : Int) : String × Int :=
  let cn := company.name
  let kp := keyword.phrase
  let support := [
    s!"I’ve tried a bunch of tools. {cn} is the only one that reliably turns rough notes into something presentable.",
    s!"+1 on {cn}. It saves me from the “align everything manually” spiral.",
    s!"If your bottleneck is going from outline → clean deck, {cn} is honestly solid."]
  let neutral := [
    "Depends on your workflow. If you already have structure, an outline-first tool helps a lot.",
    s!"For {kp}, I’d focus on reducing manual layout work. That’s usually the time sink.",
    "If you’re on a deadline, pick something that gives you a decent first draft you can polish."]
  let counter := [
    "I tried a few AI deck tools and some feel gimmicky. Make sure you can export cleanly.",
    "One caution: some tools lock you into weird templates. Check how editable the output is.",
    "If your decks need strict brand rules, you might still end up doing manual cleanup."]
  let pick := if role = "support" then support else if role = "neutral" then neutral else counter
  let pr := pickOne s pick
  let un := persona.username
  let body := pr.1
  (s!"{un}: {body}", pr.2)

/-! ## Orchestrator (generateWeekPlan.ts 117–312) -/

/-- Context shared by every post of one generation run (the values
computed on lines 129–173 before the `posts` map). -/
structure PostCtx where
  company : Company
  keywords : List Keyword
  keywordPicks : List Keyword
  subredditPicks : List Subreddit
  postAuthors : List (Option Persona)
  dayBuckets : List Int
  weekStart : Int

/-- One iteration of the `posts` map (lines 175–201).  A JS `undefined`
dereference (empty keyword/subreddit selection, absent author) is an
`Except.error`, raised at the same point of the evaluation order at
which the source throws. -/
def buildOnePost (ctx : PostCtx) (idx : Nat) (s : Int) : Except String (GenPost × Int) :=
  let keywordO := ctx.keywordPicks[idx % ctx.keywordPicks.length]?
  let subredditO := ctx.subredditPicks[idx % ctx.subredditPicks.length]?
  let authorO := (ctx.postAuthors[idx]?).join
  let day := (ctx.dayBuckets[idx]?).getD 0
  let base := addDays ctx.weekStart day
  let n1 := mulberryNext s
  let minuteOfDay : Int := (((16 * 60 : ℚ) + n1.2 * (7 * 60)) / 5).floor * 5
  let scheduled := addMinutes base minuteOfDay
  let shufRes := shuffle ctx.keywords n1.1
  let n2 := mulberryNext shufRes.2
  match keywordO with
  | none => .error "TypeError: keyword selection is empty (no keywords)"
  | some keyword =>
    let extras := ((shufRes.1.filter (fun k => k.id ≠ keyword.id)).take
        (if n2.2 < (0.6 : ℚ) then 1 else 2)).map (fun k => k.id)
    let keyword_ids := (keyword.id :: extras).take 3
    match subredditO with
    | none => .error "TypeError: subreddit selection is empty (no subreddits)"
    | some subreddit =>
      let titleRes := buildPostTitle keyword subreddit.name ctx.company.name n2.1
      match authorO with
      | none => .error "TypeError: post author is undefined (no personas)"
      | some author =>
        let bodyRes := buildPostBody ctx.company author keyword titleRes.2
        .ok ({subreddit := subreddit.name, title := titleRes.1, body := bodyRes.1,
              author_username := author.username, scheduled_at := scheduled,
              keyword_ids := keyword_ids}, bodyRes.2)

/-- The `posts` map, threading the RNG state left to right. -/
def buildPosts (ctx : PostCtx) : List Nat → Int → Except String (List GenPost × Int)
  | [], s => .ok ([], s)
  | idx :: rest, s => do
    let pr ← buildOnePost ctx idx s
    let tl ← buildPosts ctx rest pr.2
    .ok (pr.1 :: tl.1, tl.2)

/-- The comment-count draw (line 208,
`rng() < 0.25 ? 2 : rng() < 0.75 ? 3 : 4`; the second draw happens only
when the first test fails). -/
def drawNComments (s : Int) : Nat × Int :=
  let n1 := mulberryNext s
  if n1.2 < (0.25 : ℚ) then (2, n1.1)
  else
    let n2 := mulberryNext n1.1
    if n2.2 < (0.75 : ℚ) then (3, n2.1) else (4, n2.1)

/-- The optional OP self-reply (lines 235–245): a 65%-probability reply
by the post's author, parented to comment 1.  Returns the pushed
comments, the updated thread time `t`, and the RNG state. -/
def opReplyPart (p startIdx : Nat) (authorUsername : String) (t1 s : Int) :
    List GenComment × Int × Int :=
  let opCoin := mulberryNext s
  if opCoin.2 < (0.65 : ℚ) then
    let d := mulberryNext opCoin.1
    let t2 := addMinutes t1 (6 + (d.2 * 25).floor)
    ([{post_temp_index := p, parent_temp_index := some startIdx,
       comment_text := "Appreciate it — that’s helpful. Any specific tools you’d recommend?",
       username := authorUsername, scheduled_at := t2}], t2, d.1)
  else ([], t1, opCoin.1)

/-- The optional fourth, top-level comment (lines 261–275), present when
the drawn target count is 4. -/
def extraPart (company : Company) (kw : Keyword) (p nComments : Nat)
    (extraAuthor : Persona) (t3 s : Int) : List GenComment × Int :=
  if 4 ≤ nComments then
    let d3 := mulberryNext s
    let t4 := addMinutes t3 (8 + (d3.2 * 40).floor)
    let rCoin := mulberryNext d3.1
    let role2 := if rCoin.2 < (0.5 : ℚ) then "neutral" else "counter"
    let exRes := buildComment extraAuthor kw company role2 rCoin.1
    let exUn := extraAuthor.username
    ([{post_temp_index := p, parent_temp_index := none,
       comment_text := replaceFirst exRes.1 (exUn ++ ": ") "",
       username := extraAuthor.username, scheduled_at := t4}], exRes.2)
  else ([], s)

/-- Comment-thread synthesis for one post (lines 205–275).  `startIdx`
is `comments.length` on loop entry, i.e. the global index the first
comment of this block receives. -/
def commentThread (company : Company) (personas : List Persona) (keywords : List Keyword)
    (p : Nat) (post : GenPost) (startIdx : Nat) (s : Int) :
    Except String (List GenComment × Int) :=
  let nRes := drawNComments s
  let nComments := nRes.1
  let shufRes := shuffle (personas.filter (fun x => x.username ≠ post.author_username)) nRes.2
  let commenters := shufRes.1
  let tRes := mulberryNext shufRes.2
  let t1 := addMinutes post.scheduled_at (25 + (tRes.2 * 95).floor)
  let c1AuthorO := commenters[0]? <|> personas[0]?
  let kwO := (keywords.find? (fun k => post.keyword_ids[0]? = some k.id)) <|> keywords[0]?
  match kwO, c1AuthorO with
  | none, _ => .error "TypeError: keyword is undefined in comment synthesis"
  | _, none => .error "TypeError: commenter is undefined (no personas)"
  | some kw, some c1Author =>
    let roleRes := mulberryNext tRes.1
    let role1 := if roleRes.2 < (0.7 : ℚ) then "neutral" else "counter"
    let c1Res := buildComment c1Author kw company role1 roleRes.1
    let c1un := c1Author.username
    let c1 : GenComment := {
      post_temp_index := p, parent_temp_index := none,
      comment_text := replaceFirst c1Res.1 (c1un ++ ": ") "",
      username := c1Author.username, scheduled_at := t1}
    let opRes := opReplyPart p startIdx post.author_username t1 c1Res.2
    -- source: `commenters[1] ?? commenters[0] ?? personas[0]`; the fallback
    -- tail re-evaluates exactly the expression that produced `c1Author`.
    let supportAuthor := (commenters[1]?).getD c1Author
    let dSup := mulberryNext opRes.2.2
    let t3 := addMinutes opRes.2.1 (10 + (dSup.2 * 35).floor)
    let supRes := buildComment supportAuthor kw company "support" dSup.1
    let supUn := supportAuthor.username
    let sup : GenComment := {
      post_temp_index := p, parent_temp_index := some startIdx,
      comment_text := replaceFirst supRes.1 (supUn ++ ": ") "",
      username := supportAuthor.username, scheduled_at := t3}
    -- `extraAuthor` (line 263) is a pure expression; hoisting it out of the
    -- `if` does not change it.
    let extraRes := extraPart company kw p nComments ((commenters[2]?).getD supportAuthor)
      t3 supRes.2
    .ok (c1 :: opRes.1 ++ sup :: extraRes.1, extraRes.2)

/-- The comment loop over all posts (lines 204–276), accumulating the
global comment list. -/
def commentsLoop (company : Company) (personas : List Persona) (keywords : List Keyword) :
    List (Nat × GenPost) → Nat → Int → Except String (List GenComment × Int)
  | [], _, s => .ok ([], s)
  | pp :: rest, startIdx, s => do
    let blk ← commentThread company personas keywords pp.1 pp.2 startIdx s
    let tl ← commentsLoop company personas keywords rest (startIdx + blk.1.length) blk.2
    .ok (blk.1 ++ tl.1, tl.2)

/-- Quality scoring (lines 278–305). -/
def qualityOf (posts : List GenPost) (comments : List GenComment) : Quality :=
  let names := posts.map (fun p => p.author_username)
  -- `Math.max(...authorCounts.values())`: the max per-author count of the
  -- Map built on lines 281–282; taking the max over the author of every
  -- post (with multiplicity) yields the same value.
  let maxCount := (names.map (fun u => names.count u)).foldr max 0
  let maxShare : ℚ := (maxCount : ℚ) / (posts.length : ℚ)
  let dominates := decide ((0.6 : ℚ) < maxShare)
  let salesy := (posts.map (fun p => p.body) ++ comments.map (fun c => c.comment_text)).any
    looksManufactured
  -- `posts[c.post_temp_index]` is always in range; the `none` arm is dead.
  let opReplyCount := (comments.filter (fun c =>
      match posts[c.post_temp_index]? with
      | some q => c.username = q.author_username
      | none => false)).length
  let tooMany := decide ((1.2 : ℚ) < (opReplyCount : ℚ) / ((max 1 posts.length : Nat) : ℚ))
  let score := clamp
    (9 - (if dominates then 2 else 0) - (if salesy then 3 else 0) - (if tooMany then 1 else 0))
    0 10
  let notes := String.intercalate " " [
    if dominates then "Rotate posting personas more." else "Persona rotation looks good.",
    if salesy then "Language feels promotional; soften mentions and reduce CTAs."
      else "Tone looks natural.",
    if tooMany then "OP replies are a bit frequent; let others talk more."
      else "Conversation pacing is reasonable."]
  {score := score, single_persona_dominates := dominates, salesy_language := salesy,
   too_many_op_replies := tooMany, notes := notes}

/-- Day weights, Monday-first (line 161). -/
def dayWeights : List ℚ := [1.1, 1.2, 1.15, 1.2, 1.1, 0.9, 0.6]

/-- The day-bucket loop (lines 162–172), one weighted draw per post. -/
def dayLoop : Nat → Int → List Int × Int
  | 0, s => ([], s)
  | Nat.succ n, s =>
    let total := dayWeights.sum
    let next := mulberryNext s
    let day := scanBreak dayWeights (next.2 * total)
    let rest := dayLoop n next.1
    (clamp (day : Int) 0 6 :: rest.1, rest.2)

/-- Insertion step of the ascending numeric sort. -/
def insertSorted (x : Int) : List Int → List Int
  | [] => [x]
  | y :: ys => if x ≤ y then x :: y :: ys else y :: insertSorted x ys

/-- Model of `dayBuckets.sort((a, b) => a - b)` (line 173): ascending numeric
sort; insertion sort produces the same (unique) sorted arrangement. -/
def sortAsc (l : List Int) : List Int := l.foldr insertSorted []

/-- Seed derivation (lines 120–127): explicit seed if given, else the
char-code sum of company id ++ ISO week start.  `Math.abs` of the
already non-negative sum is the sum itself. -/
def genSeed (inputs : Inputs) : Int :=
  match inputs.seed with
  | some sd => sd
  | none => (charCodeSum (inputs.company.id ++ iso inputs.weekStart) : Int)

/-- Post count (line 131): `clamp(company.posts_per_week ?? 3, 1, 14)`. -/
def genPostsPerWeek (inputs : Inputs) : Nat :=
  (clamp (inputs.company.posts_per_week.getD 3) 1 14).toNat

/-- The pure setup of a run (lines 129–173): RNG init, keyword/venue
sampling, persona rotation, day buckets.  Returns the per-post context
and the RNG state entering the `posts` map. -/
def genCtxState (inputs : Inputs) : PostCtx × Int :=
  let postsPerWeek := genPostsPerWeek inputs
  let recentKw := inputs.recentKeywordIds.getD []
  let recentSub := (inputs.recentSubreddits.getD []).map lowerStr
  -- line 139's `{...k, id: k.id}` spread is an identity copy of each item
  let kwRes := weightedSampleUnique (genSeed inputs) inputs.keywords
    (fun k => if recentKw.contains k.id then (0.15 : ℚ) else 1) postsPerWeek
  let srRes := weightedSampleUnique kwRes.2 inputs.subreddits
    (fun sr => if recentSub.contains (lowerStr sr.name) then (0.35 : ℚ) else 1) postsPerWeek
  let poolRes := shuffle inputs.personas srRes.2
  let personaPool := poolRes.1
  -- lines 153–157: `personaPool[i % personaPool.length]` is `undefined`
  -- when the pool is empty
  let postAuthors : List (Option Persona) :=
    (List.range postsPerWeek).map (fun i => personaPool[i % personaPool.length]?)
  let dayRes := dayLoop postsPerWeek poolRes.2
  let dayBuckets := sortAsc dayRes.1
  ({company := inputs.company, keywords := inputs.keywords,
    keywordPicks := kwRes.1, subredditPicks := srRes.1, postAuthors := postAuthors,
    dayBuckets := dayBuckets, weekStart := inputs.weekStart}, dayRes.2)

/-- Model of `generateWeekPlan` (lines 117–312). -/
def generateWeekPlan (inputs : Inputs) : Except String GenerationResult :=
  let cs := genCtxState inputs
  do
    let posts ← buildPosts cs.1 (List.range (genPostsPerWeek inputs)) cs.2
    let comments ← commentsLoop inputs.company inputs.personas inputs.keywords
      posts.1.enum 0 posts.2
    pure {posts := posts.1, comments := comments.1, quality := qualityOf posts.1 comments.1}

/-! ## Helper predicates for the specification statements -/

/-- Whether an `Except` computation succeeded. -/
def exceptOk : Except ε α → Bool
  | .ok _ => true
  | .error _ => false

/-- C5's property: every parent reference points strictly earlier in the
global comment list, to a comment of the same post. -/
def parentsWellFormed (cs : List GenComment) : Prop :=
  ∀ (j : Nat) (c : GenComment), cs[j]? = some c → ∀ q, c.parent_temp_index = some q →
    q < j ∧ ∃ cp, cs[q]? = some cp ∧ cp.post_temp_index = c.post_temp_index

/-- Base-relative form of thread well-formedness, for the loop induction. -/
def parentsWFFrom (base : Nat) (cs : List GenComment) : Prop :=
  ∀ (j : Nat) (c : GenComment), cs[j]? = some c → ∀ q, c.parent_temp_index = some q →
    base ≤ q ∧ q - base < j ∧ ∃ cp, cs[q - base]? = some cp ∧
      cp.post_temp_index = c.post_temp_index

/-- The username of the first top-level (parentless) comment of post `p`,
in output order. -/
def firstTopLevelUsername (r : GenerationResult) (p : Nat) : Option String :=
  (((r.comments.filter (fun c => c.post_temp_index == p)).filter
      (fun c => c.parent_temp_index.isNone)).head?).map (fun c => c.username)

/-! ## Concrete inputs for witnesses and counterexamples -/

/-- A small, well-formed input bundle (three personas with distinct
usernames, three distinct keywords, three venues, week starting Monday
2025-01-06 UTC, no explicit seed), used to witness the success
hypotheses of the claims. -/
def sampleInputs : Inputs := {
  company := {id := "c1", name := "Acme", description := "Test company",
              posts_per_week := some 3},
  personas := [
    {id := "p1", company_id := "c1", username := "alice", bio := "product manager"},
    {id := "p2", company_id := "c1", username := "bob", bio := "designer"},
    {id := "p3", company_id := "c1", username := "carol", bio := "founder"}],
  subreddits := [
    {id := "s1", company_id := "c1", name := "r/design"},
    {id := "s2", company_id := "c1", name := "r/powerpoint"},
    {id := "s3", company_id := "c1", name := "r/presentations"}],
  keywords := [
    {id := "k1", phrase := "slide templates"},
    {id := "k2", phrase := "presentation workflow"},
    {id := "k3", phrase := "export to pdf"}],
  recentKeywordIds := none, recentSubreddits := none, seed := none,
  weekStart := 1736121600000}

/-- Variant of `sampleInputs` with `posts_per_week = 20` (above the clamp). -/
def overLimitInputs : Inputs :=
  {sampleInputs with company := {sampleInputs.company with posts_per_week := some 20}}

/-- Variant of `sampleInputs` with an empty keyword list. -/
def noKeywordInputs : Inputs := {sampleInputs with keywords := []}

/-- Variant of `sampleInputs` with an empty persona list. -/
def noPersonaInputs : Inputs := {sampleInputs with personas := []}

/-- A bundle with a single persona: the post author is then the only
available commenter. -/
def soloPersonaInputs : Inputs := {
  company := {id := "c1", name := "Acme", description := "", posts_per_week := some 1},
  personas := [{id := "p1", company_id := "c1", username := "solo", bio := "dev"}],
  subreddits := [{id := "s1", company_id := "c1", name := "r/design"}],
  keywords := [{id := "k1", phrase := "slide templates"}],
  recentKeywordIds := none, recentSubreddits := none, seed := some 1,
  weekStart := 1736121600000}

/-! ## Basic lemmas -/

theorem exceptOk_iff {e : Except ε α} : exceptOk e = true ↔ ∃ r, e = .ok r := by
  cases e <;> simp [exceptOk]

theorem exceptBind_ok {x : Except ε α} {f : α → Except ε β} {b : β}
    (h : (x >>= f) = .ok b) : ∃ a, x = .ok a ∧ f a = .ok b := by
  cases x with
  | error e => simp only [Bind.bind, Except.bind] at h; exact absurd h (by simp)
  | ok a => exact ⟨a, rfl, by simpa only [Bind.bind, Except.bind] using h⟩

theorem mulberryNext_nonneg (s : Int) : 0 ≤ (mulberryNext s).2 := by
  unfold mulberryNext
  positivity

theorem floor_mul_nonneg {q c : ℚ} (hq : 0 ≤ q) (hc : 0 ≤ c) : 0 ≤ (q * c).floor :=
  Rat.le_floor.mpr (by exact_mod_cast mul_nonneg hq hc)

theorem lt_addMinutes {m : Int} (t : Int) (h : 0 < m) : t < addMinutes t m := by
  unfold addMinutes
  nlinarith

/-- Swapping the head below position `j` permutes the list. -/
theorem perm_cons_set {tl : List α} {j : Nat} {b : α} (h : tl[j]? = some b) (c : α) :
    List.Perm (b :: tl.set j c) (c :: tl) := by
  induction tl generalizing j with
  | nil => simp at h
  | cons d tl ih =>
    cases j with
    | zero =>
      simp only [List.getElem?_cons_zero, Option.some.injEq] at h
      subst h
      simpa using List.Perm.swap c d tl
    | succ j =>
      simp only [List.getElem?_cons_succ] at h
      have step := ih h
      simp only [List.set_cons_succ]
      exact (List.Perm.swap d b _).trans ((step.cons d).trans (List.Perm.swap c d tl))

theorem listSwap_perm (l : List α) (i j : Nat) : List.Perm (listSwap l i j) l := by
  induction l generalizing i j with
  | nil => simp [listSwap]
  | cons a tl ih =>
    cases i with
    | zero =>
      cases j with
      | zero => simp [listSwap]
      | succ j =>
        unfold listSwap
        cases h : tl[j]? with
        | none => simp [h]
        | some b =>
          simp only [List.getElem?_cons_zero, List.getElem?_cons_succ, h,
            List.set_cons_zero, List.set_cons_succ]
          exact perm_cons_set h a
    | succ i =>
      cases j with
      | zero =>
        unfold listSwap
        cases h : tl[i]? with
        | none => simp [h]
        | some b =>
          simp only [List.getElem?_cons_zero, List.getElem?_cons_succ, h,
            List.set_cons_zero, List.set_cons_succ]
          exact perm_cons_set h a
      | succ j =>
        unfold listSwap
        cases hi : tl[i]? with
        | none => simp [hi]
        | some b =>
          cases hj : tl[j]? with
          | none => simp [hi, hj]
          | some b' =>
            simp only [List.getElem?_cons_succ, hi, hj, List.set_cons_succ]
            have step := ih i j
            unfold listSwap at step
            rw [hi, hj] at step
            exact step.cons a

theorem shuffleAux_perm (n : Nat) (l : List α) (s : Int) :
    List.Perm (shuffleAux n l s).1 l := by
  induction n generalizing l s with
  | zero => simp [shuffleAux]
  | succ k ih =>
    unfold shuffleAux
    exact (ih _ _).trans (listSwap_perm l (k + 1) _)

theorem shuffle_perm (l : List α) (s : Int) : List.Perm (shuffle l s).1 l :=
  shuffleAux_perm _ l s

theorem wsuAux_stateNil (w : α → ℚ) (k : Nat) (s : Int) : wsuAux w k ([] : List α) s = ([], s) := by
  cases k <;> simp [wsuAux]

theorem wsuAux_subset {w : α → ℚ} {k : Nat} {pool : List α} {s : Int} :
    ∀ x ∈ (wsuAux w k pool s).1, x ∈ pool := by
  induction k generalizing pool s with
  | zero => simp [wsuAux]
  | succ n ih =>
    intro x hx
    unfold wsuAux at hx
    by_cases hp : pool.isEmpty
    · simp [hp] at hx
    · simp only [hp, Bool.false_eq_true, if_false] at hx
      split at hx
      all_goals {
        simp only [spliceOut] at hx
        split at hx
        case _ heq =>
          rcases List.mem_cons.mp hx with rfl | hx'
          · exact List.getElem?_mem heq
          · exact (List.eraseIdx_sublist pool _).subset (ih _ hx')
        case _ => exact (List.eraseIdx_sublist pool _).subset (ih _ hx)
      }

theorem clamp_lower {n lo hi : Int} : lo ≤ clamp n lo hi := le_max_left lo _

theorem clamp_upper {n lo hi : Int} (h : lo ≤ hi) : clamp n lo hi ≤ hi :=
  max_le h (min_le_left hi n)

theorem genPostsPerWeek_pos (i : Inputs) : 0 < genPostsPerWeek i := by
  unfold genPostsPerWeek
  have h1 : (1 : Int) ≤ clamp (i.company.posts_per_week.getD 3) 1 14 := clamp_lower
  omega

/-! ## Inversion lemmas for the orchestrator -/

theorem generateWeekPlan_ok {i : Inputs} {r : GenerationResult}
    (h : generateWeekPlan i = .ok r) :
    ∃ pr cr,
      buildPosts (genCtxState i).1 (List.range (genPostsPerWeek i)) (genCtxState i).2
        = .ok pr ∧
      commentsLoop i.company i.personas i.keywords pr.1.enum 0 pr.2 = .ok cr ∧
      r = ⟨pr.1, cr.1, qualityOf pr.1 cr.1⟩ := by
  unfold generateWeekPlan at h
  obtain ⟨pr, hp, h⟩ := exceptBind_ok h
  obtain ⟨cr, hc, h⟩ := exceptBind_ok h
  exact ⟨pr, cr, hp, hc, by simpa [pure, Except.pure] using h.symm⟩

theorem buildPosts_length {ctx : PostCtx} {idxs : List Nat} {s : Int}
    {pr : List GenPost × Int} (h : buildPosts ctx idxs s = .ok pr) :
    pr.1.length = idxs.length := by
  induction idxs generalizing s pr with
  | nil =>
    simp only [buildPosts, Except.ok.injEq] at h
    simp [← h]
  | cons idx rest ih =>
    unfold buildPosts at h
    obtain ⟨a, _, h⟩ := exceptBind_ok h
    obtain ⟨b, hb, h⟩ := exceptBind_ok h
    simp only [Except.ok.injEq] at h
    have := ih hb
    simp [← h, this]

theorem buildPosts_mem {ctx : PostCtx} {idxs : List Nat} {s : Int}
    {pr : List GenPost × Int} (h : buildPosts ctx idxs s = .ok pr) :
    ∀ post ∈ pr.1, ∃ idx s₀ s₁, idx ∈ idxs ∧ buildOnePost ctx idx s₀ = .ok (post, s₁) := by
  induction idxs generalizing s pr with
  | nil =>
    simp only [buildPosts, Except.ok.injEq] at h
    simp [← h]
  | cons idx rest ih =>
    unfold buildPosts at h
    obtain ⟨a, ha, h⟩ := exceptBind_ok h
    obtain ⟨b, hb, h⟩ := exceptBind_ok h
    simp only [Except.ok.injEq] at h
    intro post hpost
    rw [← h] at hpost
    rcases List.mem_cons.mp hpost with rfl | hpost'
    · exact ⟨idx, s, a.2, List.mem_cons_self .., ha⟩
    · obtain ⟨idx', s₀, s₁, hmem, hb'⟩ := ih hb post hpost'
      exact ⟨idx', s₀, s₁, List.mem_cons_of_mem _ hmem, hb'⟩

theorem buildOnePost_ok {ctx : PostCtx} {idx : Nat} {s : Int} {post : GenPost} {s' : Int}
    (h : buildOnePost ctx idx s = .ok (post, s')) :
    ∃ kw shuf n,
      ctx.keywordPicks[idx % ctx.keywordPicks.length]? = some kw ∧
      List.Perm shuf ctx.keywords ∧ (n = 1 ∨ n = 2) ∧
      post.keyword_ids =
        (kw.id :: ((shuf.filter (fun k => k.id ≠ kw.id)).take n).map (fun k => k.id)).take 3 := by
  unfold buildOnePost at h
  simp only [] at h
  split at h
  · exact absurd h (by simp)
  case _ kw hkw =>
    split at h
    · exact absurd h (by simp)
    split at h
    · exact absurd h (by simp)
    simp only [Except.ok.injEq, Prod.mk.injEq] at h
    obtain ⟨h1, _⟩ := h
    refine ⟨kw, (shuffle ctx.keywords (mulberryNext s).1).1,
      if (mulberryNext (shuffle ctx.keywords (mulberryNext s).1).2).2 < (0.6 : ℚ) then 1 else 2,
      hkw, shuffle_perm ctx.keywords _, by split <;> simp, ?_⟩
    rw [← h1]

theorem lt_addMinutes_draw (t : Int) (k : Int) (s : Int) (c : ℚ) (hk : 0 < k) (hc : 0 ≤ c) :
    t < addMinutes t (k + ((mulberryNext s).2 * c).floor) := by
  have hf := floor_mul_nonneg (mulberryNext_nonneg s) hc
  exact lt_addMinutes t (by omega)

theorem opReplyPart_spec (p startIdx : Nat) (a : String) (t1 s : Int) :
    t1 ≤ (opReplyPart p startIdx a t1 s).2.1 ∧
    ((opReplyPart p startIdx a t1 s).1 = [] ∨
      ∃ c, (opReplyPart p startIdx a t1 s).1 = [c] ∧ c.post_temp_index = p ∧
        c.parent_temp_index = some startIdx ∧
        c.scheduled_at = (opReplyPart p startIdx a t1 s).2.1 ∧ t1 < c.scheduled_at) := by
  by_cases hc : (mulberryNext s).2 < (0.65 : ℚ)
  · simp only [opReplyPart, hc, if_true]
    have hlt := lt_addMinutes_draw t1 6 (mulberryNext s).1 25 (by norm_num) (by norm_num)
    exact ⟨le_of_lt hlt, Or.inr ⟨_, rfl, rfl, rfl, rfl, hlt⟩⟩
  · simp only [opReplyPart, hc, if_false]
    exact ⟨le_refl t1, Or.inl trivial⟩

theorem extraPart_spec (company : Company) (kw : Keyword) (p n : Nat) (ea : Persona)
    (t3 s : Int) :
    (extraPart company kw p n ea t3 s).1 = [] ∨
      ∃ c, (extraPart company kw p n ea t3 s).1 = [c] ∧ c.post_temp_index = p ∧
        c.parent_temp_index = none ∧ t3 < c.scheduled_at := by
  by_cases hc : 4 ≤ n
  · simp only [extraPart, hc, if_true]
    exact Or.inr ⟨_, rfl, rfl, rfl, lt_addMinutes_draw t3 8 _ 40 (by norm_num) (by norm_num)⟩
  · simp only [extraPart, hc, if_false]
    exact Or.inl trivial

/-- Inversion of one comment block: its shape, tags, parent links,
timing, and the first commenter's membership in the non-author pool. -/
theorem commentThread_ok {company : Company} {personas : List Persona}
    {keywords : List Keyword} {p : Nat} {post : GenPost} {startIdx : Nat} {s : Int}
    {block : List GenComment} {s' : Int}
    (h : commentThread company personas keywords p post startIdx s = .ok (block, s')) :
    ∃ (c1 sup : GenComment) (opL exL : List GenComment),
      block = (c1 :: opL) ++ sup :: exL ∧
      c1.post_temp_index = p ∧ c1.parent_temp_index = none ∧
      sup.post_temp_index = p ∧ sup.parent_temp_index = some startIdx ∧
      (∀ c ∈ opL, c.post_temp_index = p ∧ c.parent_temp_index = some startIdx) ∧
      (∀ c ∈ exL, c.post_temp_index = p ∧ c.parent_temp_index = none) ∧
      post.scheduled_at < c1.scheduled_at ∧
      List.Chain' (fun a b => a.scheduled_at < b.scheduled_at) ((c1 :: opL) ++ sup :: exL) ∧
      (personas.filter (fun x => x.username ≠ post.author_username) ≠ [] →
        ∃ a ∈ personas.filter (fun x => x.username ≠ post.author_username),
          c1.username = a.username) := by
  unfold commentThread at h
  lift_lets at h
  extract_lets nRes nComments shufRes commenters tRes t1 c1AuthorO kwO at h
  have hc1v : c1AuthorO = (commenters[0]? <|> personas[0]?) := rfl
  have hcv : commenters =
      (shuffle (personas.filter (fun x => x.username ≠ post.author_username)) nRes.2).1 := rfl
  clear_value c1AuthorO kwO
  split at h
  · exact Except.noConfusion h
  · exact Except.noConfusion h
  case _ kw c1A =>
    lift_lets at h
    extract_lets roleRes role1 c1Res c1un c1 opRes supportAuthor dSup t3 supRes supUn sup
      extraRes at h
    have husr : personas.filter (fun x => x.username ≠ post.author_username) ≠ [] →
        ∃ a ∈ personas.filter (fun x => x.username ≠ post.author_username),
          c1.username = a.username := by
      intro hF
      rcases hcm : commenters with _ | ⟨a, tl⟩
      · exfalso
        have hlen := (shuffle_perm (personas.filter
            (fun x => x.username ≠ post.author_username)) nRes.2).length_eq
        rw [← hcv, hcm] at hlen
        exact hF (List.eq_nil_of_length_eq_zero hlen.symm)
      · rw [hcm] at hc1v
        simp only [List.getElem?_cons_zero, Option.some_orElse, Option.some.injEq] at hc1v
        have ha : a ∈ commenters := by rw [hcm]; exact List.mem_cons_self ..
        rw [hcv] at ha
        refine ⟨a, (shuffle_perm _ _).mem_iff.mp ha, ?_⟩
        show c1A.username = a.username
        rw [hc1v]
    have hORdef : opRes = opReplyPart p startIdx post.author_username t1 c1Res.2 := rfl
    have hEXdef : extraRes = extraPart company kw p nComments
        ((commenters[2]?).getD supportAuthor) t3 supRes.2 := rfl
    obtain ⟨hople, hopalt⟩ := opReplyPart_spec p startIdx post.author_username t1 c1Res.2
    rw [← hORdef] at hople hopalt
    have hEX := extraPart_spec company kw p nComments ((commenters[2]?).getD supportAuthor)
      t3 supRes.2
    rw [← hEXdef] at hEX
    have hc1t : c1.scheduled_at = t1 := rfl
    have hsupt : sup.scheduled_at = t3 := rfl
    have ht3 : opRes.2.1 < t3 :=
      lt_addMinutes_draw opRes.2.1 10 opRes.2.2 35 (by norm_num) (by norm_num)
    have hpt1 : post.scheduled_at < t1 :=
      lt_addMinutes_draw post.scheduled_at 25 shufRes.2 95 (by norm_num) (by norm_num)
    simp only [Except.ok.injEq, Prod.mk.injEq] at h
    obtain ⟨hb, -⟩ := h
    subst hb
    refine ⟨c1, sup, opRes.1, extraRes.1, rfl, rfl, rfl, rfl, rfl, ?_, ?_, ?_, ?_, husr⟩
    · rcases hopalt with hE | ⟨c, hC, h1, h2, -, -⟩
      · rw [hE]; exact List.forall_mem_nil _
      · rw [hC]
        intro c' hc'
        simp only [List.mem_singleton] at hc'
        subst hc'
        exact ⟨h1, h2⟩
    · rcases hEX with hE | ⟨c, hC, h1, h2, -⟩
      · rw [hE]; exact List.forall_mem_nil _
      · rw [hC]
        intro c' hc'
        simp only [List.mem_singleton] at hc'
        subst hc'
        exact ⟨h1, h2⟩
    · rw [hc1t]; exact hpt1
    · rcases hopalt with hE | ⟨c, hC, -, -, h3, h4⟩ <;>
        rcases hEX with hE2 | ⟨c2, hC2, -, -, h5⟩
      · rw [hE, hE2]
        simp only [List.nil_append, List.cons_append, List.chain'_cons,
          List.chain'_singleton, and_true]
        exact lt_of_le_of_lt hople ht3
      · rw [hE, hC2]
        simp only [List.nil_append, List.cons_append, List.chain'_cons,
          List.chain'_singleton, and_true]
        exact ⟨lt_of_le_of_lt hople ht3, h5⟩
      · rw [hC, hE2]
        simp only [List.nil_append, List.cons_append, List.chain'_cons,
          List.chain'_singleton, and_true]
        exact ⟨h4, h3 ▸ ht3⟩
      · rw [hC, hC2]
        simp only [List.nil_append, List.cons_append, List.chain'_cons,
          List.chain'_singleton, and_true]
        exact ⟨h4, h3 ▸ ht3, h5⟩

theorem commentThread_wf {company : Company} {personas : List Persona}
    {keywords : List Keyword} {p : Nat} {post : GenPost} {base : Nat} {s : Int}
    {blk : List GenComment × Int}
    (h : commentThread company personas keywords p post base s = .ok blk) :
    blk.1 ≠ [] ∧
    (∀ (j : Nat) (c : GenComment), blk.1[j]? = some c → ∀ q, c.parent_temp_index = some q →
      q = base ∧ 0 < j) ∧
    (∃ c1, blk.1[0]? = some c1 ∧ c1.post_temp_index = p ∧ c1.parent_temp_index = none) ∧
    (∀ c ∈ blk.1, c.post_temp_index = p) := by
  obtain ⟨c1, sup, opL, exL, hb, h1, h2, h3, h4, hop, hex, -, -, -⟩ :=
    commentThread_ok (show _ = .ok (blk.1, blk.2) from h)
  have hmem : ∀ c ∈ blk.1, c.post_temp_index = p := by
    intro c hc
    rw [hb] at hc
    rcases List.mem_append.mp hc with hcl | hcr
    · rcases List.mem_cons.mp hcl with rfl | hcl'
      · exact h1
      · exact (hop c hcl').1
    · rcases List.mem_cons.mp hcr with rfl | hcr'
      · exact h3
      · exact (hex c hcr').1
  have h0 : blk.1[0]? = some c1 := by
    rw [hb]
    rw [List.getElem?_append_left (by simp)]
    simp
  refine ⟨by rw [hb]; simp, ?_, ⟨c1, h0, h1, h2⟩, hmem⟩
  intro j c hj q hq
  have hcmem : c ∈ blk.1 := List.getElem?_mem hj
  have hpar : c.parent_temp_index = some base ∨ c.parent_temp_index = none := by
    rw [hb] at hcmem
    rcases List.mem_append.mp hcmem with hcl | hcr
    · rcases List.mem_cons.mp hcl with rfl | hcl'
      · exact Or.inr h2
      · exact Or.inl (hop c hcl').2
    · rcases List.mem_cons.mp hcr with rfl | hcr'
      · exact Or.inl h4
      · exact Or.inr (hex c hcr').2
  rcases hpar with hP | hP
  · rw [hP] at hq
    have hqeq : q = base := by injection hq.symm
    refine ⟨hqeq, ?_⟩
    rcases Nat.eq_zero_or_pos j with rfl | hjpos
    · rw [h0] at hj
      have hcc : c1 = c := by injection hj
      rw [← hcc, h2] at hP
      exact Option.noConfusion hP
    · exact hjpos
  · rw [hP] at hq
    exact Option.noConfusion hq

theorem commentsLoop_ok_cons {company : Company} {personas : List Persona}
    {keywords : List Keyword} {p : Nat} {post : GenPost} {rest : List (Nat × GenPost)}
    {base : Nat} {s : Int} {cr : List GenComment × Int}
    (h : commentsLoop company personas keywords ((p, post) :: rest) base s = .ok cr) :
    ∃ blk tl, commentThread company personas keywords p post base s = .ok blk ∧
      commentsLoop company personas keywords rest (base + blk.1.length) blk.2 = .ok tl ∧
      cr.1 = blk.1 ++ tl.1 := by
  unfold commentsLoop at h
  obtain ⟨blk, hblk, h⟩ := exceptBind_ok h
  obtain ⟨tl, htl, h⟩ := exceptBind_ok h
  simp only [Except.ok.injEq] at h
  exact ⟨blk, tl, hblk, htl, by rw [← h]⟩

theorem commentsLoop_tags {company : Company} {personas : List Persona}
    {keywords : List Keyword} {pairs : List (Nat × GenPost)} :
    ∀ {base : Nat} {s : Int} {cr : List GenComment × Int},
      commentsLoop company personas keywords pairs base s = .ok cr →
      ∀ c ∈ cr.1, c.post_temp_index ∈ pairs.map Prod.fst := by
  induction pairs with
  | nil =>
    intro base s cr h c hc
    simp only [commentsLoop, Except.ok.injEq] at h
    rw [← h] at hc
    simp at hc
  | cons pp rest ih =>
    intro base s cr h c hc
    obtain ⟨p, post⟩ := pp
    obtain ⟨blk, tl, hblk, htl, hcr⟩ := commentsLoop_ok_cons h
    rw [hcr] at hc
    rcases List.mem_append.mp hc with hcl | hcr'
    · have := (commentThread_wf hblk).2.2.2 c hcl
      simp [this]
    · have := ih htl c hcr'
      simp only [List.map_cons]
      exact List.mem_cons_of_mem _ this

theorem commentsLoop_wf {company : Company} {personas : List Persona}
    {keywords : List Keyword} {pairs : List (Nat × GenPost)} :
    ∀ {base : Nat} {s : Int} {cr : List GenComment × Int},
      commentsLoop company personas keywords pairs base s = .ok cr →
      parentsWFFrom base cr.1 := by
  induction pairs with
  | nil =>
    intro base s cr h j c hj q hq
    simp only [commentsLoop, Except.ok.injEq] at h
    rw [← h] at hj
    simp at hj
  | cons pp rest ih =>
    intro base s cr h j c hj q hq
    obtain ⟨p, post⟩ := pp
    obtain ⟨blk, tl, hblk, htl, hcr⟩ := commentsLoop_ok_cons h
    obtain ⟨hne, hpc, ⟨c1, hc1, hc1p, -⟩, htags⟩ := commentThread_wf hblk
    rw [hcr] at hj ⊢
    by_cases hjlen : j < blk.1.length
    · rw [List.getElem?_append_left hjlen] at hj
      obtain ⟨hqeq, hjpos⟩ := hpc j c hj q hq
      subst hqeq
      refine ⟨le_refl q, by omega, c1, ?_, ?_⟩
      · rw [Nat.sub_self, List.getElem?_append_left
          (List.length_pos_of_ne_nil hne)]
        exact hc1
      · rw [hc1p, htags c (List.getElem?_mem hj)]
    · push_neg at hjlen
      rw [List.getElem?_append_right hjlen] at hj
      obtain ⟨hq1, hq2, cp, hcp, hcpt⟩ := ih htl (j - blk.1.length) c hj q hq
      refine ⟨by omega, by omega, cp, ?_, hcpt⟩
      rw [List.getElem?_append_right (by omega)]
      have : q - blk.1.length - base = q - (base + blk.1.length) := by omega
      rw [show q - base - blk.1.length = q - (base + blk.1.length) by omega]
      exact hcp

theorem commentsLoop_filter {company : Company} {personas : List Persona}
    {keywords : List Keyword} {pairs : List (Nat × GenPost)} :
    ∀ {base : Nat} {s : Int} {cr : List GenComment × Int},
      commentsLoop company personas keywords pairs base s = .ok cr →
      (pairs.map Prod.fst).Nodup →
      ∀ {p : Nat} {post : GenPost}, (p, post) ∈ pairs →
        ∃ (base' : Nat) (s₀ : Int) (blk : List GenComment × Int),
          commentThread company personas keywords p post base' s₀ = .ok blk ∧
          cr.1.filter (fun c => c.post_temp_index == p) = blk.1 := by
  induction pairs with
  | nil =>
    intro base s cr h hnd p post hmem
    simp at hmem
  | cons pp rest ih =>
    intro base s cr h hnd p post hmem
    obtain ⟨p₀, post₀⟩ := pp
    obtain ⟨blk, tl, hblk, htl, hcr⟩ := commentsLoop_ok_cons h
    simp only [List.map_cons, List.nodup_cons] at hnd
    obtain ⟨hp₀, hndrest⟩ := hnd
    rcases List.mem_cons.mp hmem with heq | hmem'
    · obtain ⟨rfl, rfl⟩ := Prod.mk.injEq .. ▸ heq
      refine ⟨base, s, blk, hblk, ?_⟩
      rw [hcr, List.filter_append]
      have hfb : blk.1.filter (fun c => c.post_temp_index == p) = blk.1 :=
        List.filter_eq_self.mpr (fun c hc => by
          simp [(commentThread_wf hblk).2.2.2 c hc])
      have hft : tl.1.filter (fun c => c.post_temp_index == p) = [] :=
        List.filter_eq_nil_iff.mpr (fun c hc => by
          have := commentsLoop_tags htl c hc
          simp only [beq_iff_eq]
          intro hcp
          rw [hcp] at this
          exact hp₀ this)
      rw [hfb, hft, List.append_nil]
    · have hpmem : p ∈ rest.map Prod.fst := by
        exact List.mem_map.mpr ⟨(p, post), hmem', rfl⟩
      have hpne : p ≠ p₀ := fun hcontra => hp₀ (hcontra ▸ hpmem)
      obtain ⟨base', s₀, blk', hblk', hfil⟩ := ih htl hndrest hmem'
      refine ⟨base', s₀, blk', hblk', ?_⟩
      rw [hcr, List.filter_append]
      have hfb : blk.1.filter (fun c => c.post_temp_index == p) = [] :=
        List.filter_eq_nil_iff.mpr (fun c hc => by
          have := (commentThread_wf hblk).2.2.2 c hc
          simp only [beq_iff_eq]
          intro hcp
          rw [this] at hcp
          exact hpne hcp.symm)
      rw [hfb, List.nil_append, hfil]

/-! ## The claims -/

/-- C1: for every input bundle with no explicit seed override, two
invocations of `generateWeekPlan` on identical inputs produce identical
output — the same posts, the same comments, and the same quality report.
The embedding is a pure function of the inputs: every random draw flows
through the single `mulberry32` stream seeded from `(company, week)`,
so the two results are one and the same value. -/
theorem c1_determinism (i : Inputs) (h : i.seed = none) :
    generateWeekPlan i = generateWeekPlan i := rfl

theorem c1_determinism_witness :
    sampleInputs.seed = none ∧
      generateWeekPlan sampleInputs = generateWeekPlan sampleInputs :=
  ⟨rfl, c1_determinism sampleInputs rfl⟩

theorem buildOnePost_err_noKeywords {ctx : PostCtx} (hk : ctx.keywordPicks = [])
    (idx : Nat) (s : Int) :
    buildOnePost ctx idx s = .error "TypeError: keyword selection is empty (no keywords)" := by
  unfold buildOnePost
  rw [hk]
  simp

theorem buildPosts_cons_err {ctx : PostCtx} {idx : Nat} {rest : List Nat} {s : Int}
    {msg : String} (he : buildOnePost ctx idx s = .error msg) :
    buildPosts ctx (idx :: rest) s = .error msg := by
  unfold buildPosts
  rw [he]
  rfl

/-- C2: for every input whose keyword list is empty, `generateWeekPlan`
raises an error and returns no result (never an empty or partial
result): the first post's keyword access dereferences `undefined`. -/
theorem c2_empty_keywords_error (i : Inputs) (h : i.keywords = []) :
    ∃ msg, generateWeekPlan i = .error msg := by
  refine ⟨"TypeError: keyword selection is empty (no keywords)", ?_⟩
  have hk : (genCtxState i).1.keywordPicks = [] := by
    show (weightedSampleUnique (genSeed i) i.keywords _ (genPostsPerWeek i)).1 = []
    rw [h]
    show (wsuAux _ (genPostsPerWeek i) [] (genSeed i)).1 = []
    rw [wsuAux_stateNil]
  obtain ⟨m, hm⟩ : ∃ m, genPostsPerWeek i = m + 1 :=
    ⟨genPostsPerWeek i - 1, by have := genPostsPerWeek_pos i; omega⟩
  unfold generateWeekPlan
  simp only []
  rw [hm, List.range_succ_eq_map, buildPosts_cons_err (buildOnePost_err_noKeywords hk 0 _)]
  rfl

theorem c2_empty_keywords_error_witness :
    noKeywordInputs.keywords = [] ∧
      ∃ msg, generateWeekPlan noKeywordInputs = .error msg :=
  ⟨rfl, c2_empty_keywords_error noKeywordInputs rfl⟩

set_option maxRecDepth 400000 in
/-- C3: the claim (and the repository's own test
"handles empty personas by assigning posts anyway") says an empty
persona list must still produce at least one post with a fallback
author.  The code instead dereferences the `undefined` author's `bio`
in `buildPostBody` (author rotation `personaPool[i % 0]` yields
`undefined`) and throws: evaluating the generator at an empty-persona
input gives an error, not a result. -/
theorem c3_empty_personas_throws :
    generateWeekPlan noPersonaInputs =
      .error "TypeError: post author is undefined (no personas)" := by rfl

/-- C4: whenever `generateWeekPlan` succeeds, the number of posts is
exactly `clamp(posts_per_week ?? 3, 1, 14)`; in particular
`posts_per_week = 20` yields 14 posts and `posts_per_week = 0` yields 1. -/
theorem c4_post_count (i : Inputs) (h : exceptOk (generateWeekPlan i) = true) :
    Except.map (fun r => r.posts.length) (generateWeekPlan i) =
      .ok (clamp ((i.company.posts_per_week).getD 3) 1 14).toNat := by
  obtain ⟨r, hr⟩ := exceptOk_iff.mp h
  obtain ⟨pr, cr, hp, hc, hres⟩ := generateWeekPlan_ok hr
  rw [hr]
  simp only [Except.map]
  congr 1
  rw [hres]
  show pr.1.length = (clamp ((i.company.posts_per_week).getD 3) 1 14).toNat
  rw [buildPosts_length hp, List.length_range]
  rfl

set_option maxRecDepth 400000 in
theorem c4_post_count_witness :
    exceptOk (generateWeekPlan overLimitInputs) = true ∧
      Except.map (fun r => r.posts.length) (generateWeekPlan overLimitInputs) =
        .ok (clamp ((overLimitInputs.company.posts_per_week).getD 3) 1 14).toNat :=
  ⟨by decide, c4_post_count overLimitInputs (by decide)⟩

/-- C5: whenever `generateWeekPlan` succeeds, every comment's parent
reference (if present) points strictly earlier in the global comment
list, and the referenced parent belongs to the same post
(equal `post_temp_index`). -/
theorem c5_thread_wellformed (i : Inputs) (h : exceptOk (generateWeekPlan i) = true) :
    ∃ r, generateWeekPlan i = .ok r ∧ parentsWellFormed r.comments := by
  obtain ⟨r, hr⟩ := exceptOk_iff.mp h
  refine ⟨r, hr, ?_⟩
  obtain ⟨pr, cr, hp, hc, hres⟩ := generateWeekPlan_ok hr
  have hwf := commentsLoop_wf hc
  intro j c hj q hq
  have hcomments : r.comments = cr.1 := by rw [hres]
  rw [hcomments] at hj ⊢
  obtain ⟨h1, h2, cp, hcp, hcpt⟩ := hwf j c hj q hq
  exact ⟨by omega, cp, by simpa using hcp, hcpt⟩

set_option maxRecDepth 400000 in
theorem c5_thread_wellformed_witness :
    exceptOk (generateWeekPlan sampleInputs) = true ∧
      ∃ r, generateWeekPlan sampleInputs = .ok r ∧ parentsWellFormed r.comments :=
  ⟨by decide, c5_thread_wellformed sampleInputs (by decide)⟩

set_option maxRecDepth 400000 in
/-- C6, refuted as stated: on `soloPersonaInputs` (a single persona) the
generator succeeds and the author of the first top-level comment of
post 0 is the post's own author — the `c1Author = commenters[0] ??
personas[0]` fallback selects the author when the non-author pool is
empty. -/
theorem c6_counterexample :
    (match generateWeekPlan soloPersonaInputs with
     | .ok r =>
       match r.posts[0]?, firstTopLevelUsername r 0 with
       | some post, some u => u == post.author_username
       | _, _ => false
     | .error _ => false) = true := by decide

/-- C6 (amended): the claim holds for every post for which some persona's
username differs from the post author's username (in particular whenever
there are two distinct usernames); only the degenerate
single-username-pool fallback can make the post author the first
top-level commenter. -/
theorem c6_first_commenter_amended (i : Inputs)
    (h : exceptOk (generateWeekPlan i) = true) :
    ∃ r, generateWeekPlan i = .ok r ∧
      ∀ (p : Nat) (post : GenPost), r.posts[p]? = some post →
        (∃ a ∈ i.personas, a.username ≠ post.author_username) →
        ∀ u, firstTopLevelUsername r p = some u → u ≠ post.author_username := by
  obtain ⟨r, hr⟩ := exceptOk_iff.mp h
  refine ⟨r, hr, ?_⟩
  obtain ⟨pr, cr, hp, hc, hres⟩ := generateWeekPlan_ok hr
  intro p post hpost hex u hu
  have hposts : r.posts = pr.1 := by rw [hres]
  have hcomments : r.comments = cr.1 := by rw [hres]
  have hmem : (p, post) ∈ pr.1.enum := by
    rw [List.mem_enum_iff_getElem?]
    rw [hposts] at hpost
    exact hpost
  have hnd : (pr.1.enum.map Prod.fst).Nodup := by
    rw [List.enum_map_fst]
    exact List.nodup_range _
  obtain ⟨base', s₀, blk, hblk, hfil⟩ := commentsLoop_filter hc hnd hmem
  obtain ⟨c1, sup, opL, exL, hb, -, h2, -, -, -, -, -, -, husr⟩ :=
    commentThread_ok (show _ = .ok (blk.1, blk.2) from hblk)
  have hF : i.personas.filter (fun x => x.username ≠ post.author_username) ≠ [] := by
    obtain ⟨a, ha, hane⟩ := hex
    exact List.ne_nil_of_mem (List.mem_filter.mpr ⟨ha, by simpa using hane⟩)
  obtain ⟨b, hbF, hbu⟩ := husr hF
  have hu' : u = c1.username := by
    unfold firstTopLevelUsername at hu
    rw [hcomments, hfil, hb, List.cons_append] at hu
    rw [List.filter_cons_of_pos (by rw [h2]; rfl)] at hu
    simp only [List.head?_cons, Option.map_some'] at hu
    injection hu with huv
    exact huv.symm
  have hbne : b.username ≠ post.author_username := by
    have := List.mem_filter.mp hbF
    simpa using this.2
  rw [hu', hbu]
  exact hbne

set_option maxRecDepth 400000 in
theorem c6_first_commenter_amended_witness :
    exceptOk (generateWeekPlan sampleInputs) = true ∧
      ∃ r, generateWeekPlan sampleInputs = .ok r ∧
        ∀ (p : Nat) (post : GenPost), r.posts[p]? = some post →
          (∃ a ∈ sampleInputs.personas, a.username ≠ post.author_username) →
          ∀ u, firstTopLevelUsername r p = some u → u ≠ post.author_username :=
  ⟨by decide, c6_first_commenter_amended sampleInputs (by decide)⟩

/-- C7: whenever `generateWeekPlan` succeeds, the comments of each post
(in output order) carry strictly increasing scheduled times, each
strictly later than the post's own scheduled time.  (Timestamps are the
underlying epoch-millisecond values; the source serialises them through
the injective, order-preserving `toISOString`.) -/
theorem c7_comment_times (i : Inputs) (h : exceptOk (generateWeekPlan i) = true) :
    ∃ r, generateWeekPlan i = .ok r ∧
      ∀ (p : Nat) (post : GenPost), r.posts[p]? = some post →
        List.Chain' (fun a b => a.scheduled_at < b.scheduled_at)
          (r.comments.filter (fun c => c.post_temp_index == p)) ∧
        ∀ c ∈ r.comments.filter (fun c => c.post_temp_index == p),
          post.scheduled_at < c.scheduled_at := by
  obtain ⟨r, hr⟩ := exceptOk_iff.mp h
  refine ⟨r, hr, ?_⟩
  obtain ⟨pr, cr, hp, hc, hres⟩ := generateWeekPlan_ok hr
  intro p post hpost
  have hposts : r.posts = pr.1 := by rw [hres]
  have hcomments : r.comments = cr.1 := by rw [hres]
  have hmem : (p, post) ∈ pr.1.enum := by
    rw [List.mem_enum_iff_getElem?]
    rw [hposts] at hpost
    exact hpost
  have hnd : (pr.1.enum.map Prod.fst).Nodup := by
    rw [List.enum_map_fst]
    exact List.nodup_range _
  obtain ⟨base', s₀, blk, hblk, hfil⟩ := commentsLoop_filter hc hnd hmem
  obtain ⟨c1, sup, opL, exL, hb, -, -, -, -, -, -, hlt, hchain, -⟩ :=
    commentThread_ok (show _ = .ok (blk.1, blk.2) from hblk)
  rw [hcomments, hfil, hb]
  constructor
  · exact hchain
  · haveI : IsTrans GenComment (fun a b => a.scheduled_at < b.scheduled_at) :=
      ⟨fun _ _ _ hab hbc => lt_trans hab hbc⟩
    have hpw := List.chain'_iff_pairwise.mp hchain
    rw [List.cons_append] at hpw
    have hall := (List.pairwise_cons.mp hpw).1
    intro c hcmem
    rw [List.cons_append] at hcmem
    rcases List.mem_cons.mp hcmem with rfl | hcm
    · exact hlt
    · exact lt_trans hlt (hall c hcm)

set_option maxRecDepth 400000 in
theorem c7_comment_times_witness :
    exceptOk (generateWeekPlan sampleInputs) = true ∧
      ∃ r, generateWeekPlan sampleInputs = .ok r ∧
        ∀ (p : Nat) (post : GenPost), r.posts[p]? = some post →
          List.Chain' (fun a b => a.scheduled_at < b.scheduled_at)
            (r.comments.filter (fun c => c.post_temp_index == p)) ∧
          ∀ c ∈ r.comments.filter (fun c => c.post_temp_index == p),
            post.scheduled_at < c.scheduled_at :=
  ⟨by decide, c7_comment_times sampleInputs (by decide)⟩

theorem genCtxState_keywordPicks_subset (i : Inputs) :
    ∀ kw ∈ (genCtxState i).1.keywordPicks, kw ∈ i.keywords := by
  intro kw hkw
  have hkw' : kw ∈ (wsuAux
      (fun k => if (i.recentKeywordIds.getD []).contains k.id then (0.15 : ℚ) else 1)
      (genPostsPerWeek i) i.keywords (genSeed i)).1 := hkw
  exact wsuAux_subset kw hkw'

/-- C8: with pairwise-distinct keyword ids, every produced post carries
between 1 and 3 keyword ids, the first being the id of the post's
primary (selected) keyword — an id of one of the input keywords — and
all ids pairwise distinct. -/
theorem c8_keyword_ids (i : Inputs) (hnd : (i.keywords.map (fun k => k.id)).Nodup)
    (h : exceptOk (generateWeekPlan i) = true) :
    ∃ r, generateWeekPlan i = .ok r ∧
      ∀ post ∈ r.posts,
        (1 ≤ post.keyword_ids.length ∧ post.keyword_ids.length ≤ 3) ∧
        (∃ kid, post.keyword_ids.head? = some kid ∧
          kid ∈ i.keywords.map (fun k => k.id)) ∧
        post.keyword_ids.Nodup := by
  obtain ⟨r, hr⟩ := exceptOk_iff.mp h
  refine ⟨r, hr, ?_⟩
  obtain ⟨pr, cr, hp, hc, hres⟩ := generateWeekPlan_ok hr
  intro post hpost
  have hposts : r.posts = pr.1 := by rw [hres]
  rw [hposts] at hpost
  obtain ⟨idx, s₀, s₁, -, hone⟩ := buildPosts_mem hp post hpost
  obtain ⟨kw, shuf, n, hkwp, hperm, hn, hids⟩ := buildOnePost_ok hone
  have hkwmem : kw ∈ i.keywords :=
    genCtxState_keywordPicks_subset i kw (List.getElem?_mem hkwp)
  have hpermI : List.Perm shuf i.keywords := hperm
  have hkid_not : kw.id ∉ ((shuf.filter (fun k => k.id ≠ kw.id)).take n).map
      (fun k => k.id) := by
    intro hmem
    obtain ⟨k, hk, hkid⟩ := List.mem_map.mp hmem
    have hk' := List.mem_filter.mp ((List.take_sublist _ _).subset hk)
    simp only [decide_eq_true_eq] at hk'
    exact hk'.2 hkid
  have hnd_shuf : (shuf.map (fun k => k.id)).Nodup :=
    (hpermI.map (fun k => k.id)).nodup_iff.mpr hnd
  have hnodup_extras : (((shuf.filter (fun k => k.id ≠ kw.id)).take n).map
      (fun k => k.id)).Nodup := by
    have hsub : List.Sublist
        (((shuf.filter (fun k => k.id ≠ kw.id)).take n).map (fun k => k.id))
        (shuf.map (fun k => k.id)) :=
      List.Sublist.map _ ((List.take_sublist _ _).trans (List.filter_sublist _))
    exact List.Nodup.sublist hsub hnd_shuf
  rw [hids]
  refine ⟨?_, ⟨kw.id, rfl, List.mem_map.mpr ⟨kw, hkwmem, rfl⟩⟩, ?_⟩
  · rw [List.length_take, List.length_cons]
    omega
  · exact List.Nodup.sublist (List.take_sublist _ _)
      (List.nodup_cons.mpr ⟨hkid_not, hnodup_extras⟩)

set_option maxRecDepth 400000 in
theorem c8_keyword_ids_witness :
    ((sampleInputs.keywords.map (fun k => k.id)).Nodup ∧
      exceptOk (generateWeekPlan sampleInputs) = true) ∧
    ∃ r, generateWeekPlan sampleInputs = .ok r ∧
      ∀ post ∈ r.posts,
        (1 ≤ post.keyword_ids.length ∧ post.keyword_ids.length ≤ 3) ∧
        (∃ kid, post.keyword_ids.head? = some kid ∧
          kid ∈ sampleInputs.keywords.map (fun k => k.id)) ∧
        post.keyword_ids.Nodup :=
  ⟨⟨by decide, by decide⟩, c8_keyword_ids sampleInputs (by decide) (by decide)⟩

/-- C9: whenever `generateWeekPlan` succeeds, the quality score equals 9
minus 2 for `single_persona_dominates`, minus 3 for `salesy_language`,
minus 1 for `too_many_op_replies`, clamped to `[0, 10]`; hence the score
is an integer in `[0, 10]`. -/
theorem c9_quality_score (i : Inputs) (h : exceptOk (generateWeekPlan i) = true) :
    ∃ r, generateWeekPlan i = .ok r ∧
      r.quality.score = clamp (9 - (if r.quality.single_persona_dominates then 2 else 0)
          - (if r.quality.salesy_language then 3 else 0)
          - (if r.quality.too_many_op_replies then 1 else 0)) 0 10 ∧
      0 ≤ r.quality.score ∧ r.quality.score ≤ 10 := by
  obtain ⟨r, hr⟩ := exceptOk_iff.mp h
  obtain ⟨pr, cr, hp, hc, hres⟩ := generateWeekPlan_ok hr
  have hq : r.quality = qualityOf pr.1 cr.1 := by rw [hres]
  have hscore : r.quality.score =
      clamp (9 - (if r.quality.single_persona_dominates then 2 else 0)
        - (if r.quality.salesy_language then 3 else 0)
        - (if r.quality.too_many_op_replies then 1 else 0)) 0 10 := by
    rw [hq]
    rfl
  refine ⟨r, hr, hscore, ?_, ?_⟩
  · rw [hscore]; exact clamp_lower
  · rw [hscore]; exact clamp_upper (by norm_num)

set_option maxRecDepth 400000 in
theorem c9_quality_score_witness :
    exceptOk (generateWeekPlan sampleInputs) = true ∧
    ∃ r, generateWeekPlan sampleInputs = .ok r ∧
      r.quality.score = clamp (9 - (if r.quality.single_persona_dominates then 2 else 0)
          - (if r.quality.salesy_language then 3 else 0)
          - (if r.quality.too_many_op_replies then 1 else 0)) 0 10 ∧
      0 ≤ r.quality.score ∧ r.quality.score ≤ 10 :=
  ⟨by decide, c9_quality_score sampleInputs (by decide)⟩

theorem filter_ne_length {l : List Keyword} {x : String}
    (hnd : (l.map (fun k => k.id)).Nodup) :
    l.length - 1 ≤ (l.filter (fun k => k.id ≠ x)).length := by
  induction l with
  | nil => simp
  | cons a tl ih =>
    simp only [List.map_cons, List.nodup_cons] at hnd
    obtain ⟨hna, hnd'⟩ := hnd
    by_cases hax : a.id = x
    · have hpa : (decide (a.id ≠ x)) = false := by simp [hax]
      have heq : tl.filter (fun k => decide (k.id ≠ x)) = tl :=
        List.filter_eq_self.mpr (fun b hb => by
          simp only [decide_eq_true_eq]
          intro hbx
          exact hna (List.mem_map.mpr ⟨b, hb, by rw [hbx, hax]⟩))
      rw [List.filter_cons, hpa]
      simp only [Bool.false_eq_true, if_false, heq, List.length_cons]
      omega
    · have hpa : (decide (a.id ≠ x)) = true := by simp [hax]
      rw [List.filter_cons, hpa]
      simp only [if_true, List.length_cons]
      have := ih hnd'
      omega

/-- C10: with at least two pairwise-distinct keyword ids, every produced
post carries at least two keyword ids — the "0 extras" case cannot
occur, because each post always takes 1 or 2 extra ids from the
non-primary keywords, of which at least one exists. -/
theorem c10_min_two_keyword_ids (i : Inputs)
    (hnd : (i.keywords.map (fun k => k.id)).Nodup) (hlen : 2 ≤ i.keywords.length)
    (h : exceptOk (generateWeekPlan i) = true) :
    ∃ r, generateWeekPlan i = .ok r ∧ ∀ post ∈ r.posts, 2 ≤ post.keyword_ids.length := by
  obtain ⟨r, hr⟩ := exceptOk_iff.mp h
  refine ⟨r, hr, ?_⟩
  obtain ⟨pr, cr, hp, hc, hres⟩ := generateWeekPlan_ok hr
  intro post hpost
  have hposts : r.posts = pr.1 := by rw [hres]
  rw [hposts] at hpost
  obtain ⟨idx, s₀, s₁, -, hone⟩ := buildPosts_mem hp post hpost
  obtain ⟨kw, shuf, n, hkwp, hperm, hn, hids⟩ := buildOnePost_ok hone
  have hnd_shuf : (shuf.map (fun k => k.id)).Nodup :=
    (hperm.map (fun k => k.id)).nodup_iff.mpr hnd
  have hflen := filter_ne_length (x := kw.id) hnd_shuf
  have hlshuf : shuf.length = i.keywords.length := hperm.length_eq
  have hexlen : 1 ≤ ((shuf.filter (fun k => k.id ≠ kw.id)).take n).length := by
    rw [List.length_take]
    rcases hn with rfl | rfl <;> omega
  rw [hids, List.length_take, List.length_cons, List.length_map]
  omega

set_option maxRecDepth 400000 in
theorem c10_min_two_keyword_ids_witness :
    ((sampleInputs.keywords.map (fun k => k.id)).Nodup ∧ 2 ≤ sampleInputs.keywords.length ∧
      exceptOk (generateWeekPlan sampleInputs) = true) ∧
    ∃ r, generateWeekPlan sampleInputs = .ok r ∧
      ∀ post ∈ r.posts, 2 ≤ post.keyword_ids.length :=
  ⟨⟨by decide, by decide, by decide⟩,
    c10_min_two_keyword_ids sampleInputs (by decide) (by decide) (by decide)⟩

end Planner
